import Mathlib

/-!
Shallow embedding of `src/msmtools/analysis/dense/decomposition.py`.

The module computes spectral properties of Markov transition matrices.
Its external numerical primitives (`scipy.linalg.eig`, `eigvals`,
`eigvalsh`, `solve`, `lu_factor`/`lu_solve`) are black boxes per the
specification; we model them as parameters (the lists/matrices/vectors
they return, or a `solve` function), constrained in theorems by their
exact-arithmetic contracts.  Complex scalars returned by the general
eigenvalue solver are modelled as pairs of rationals (so that the
sorting and selection logic of the module stays fully executable);
real-valued computations involving square roots and logarithms are
modelled over the real numbers.
-/

namespace Msmtools

/-- A complex scalar, as returned by the general eigenvalue solver:
real and imaginary part. -/
abbrev Cplx : Type := ℚ × ℚ

/-- Squared modulus of a complex scalar. -/
def absSq (z : Cplx) : ℚ := z.1 ^ 2 + z.2 ^ 2

/-- Modulus of a complex scalar (`np.abs` on a complex array entry). -/
noncomputable def cabs (z : Cplx) : ℝ := Real.sqrt ((z.1 : ℝ) ^ 2 + (z.2 : ℝ) ^ 2)

/-- Comparison by non-increasing modulus.  `np.argsort(np.abs(evals))[::-1]`
reorders the array so that adjacent elements satisfy this relation; comparing
squared moduli is equivalent to comparing moduli. -/
def absGe (a b : Cplx) : Prop := absSq b ≤ absSq a

instance : DecidableRel absGe := fun a b => inferInstanceAs (Decidable (_ ≤ _))

instance : IsTotal Cplx absGe := ⟨fun a b => le_total (absSq b) (absSq a)⟩

instance : IsTrans Cplx absGe := ⟨fun _ _ _ h h' => le_trans h' h⟩

/-- The sorting step shared by `eigenvalues` and `eigenvectors`:
`ind = np.argsort(np.abs(evals))[::-1]; evals = evals[ind]`. -/
def sortDescAbs (evals : List Cplx) : List Cplx := evals.insertionSort absGe

/-- The eigenvalue selector `k`: `None`, an integer, or a collection of
indices (`list`/`set`/`tuple`). -/
inductive KSel : Type where
  | all : KSel
  | top : ℕ → KSel
  | idx : List ℕ → KSel

/-- Selection logic of `eigenvalues` (lines 177-189 of the source): sort the
solver output by decreasing modulus, then either return positions listed in
`k` (raising `ValueError` carrying `k` if an index is out of range), or the
leading `k` entries (a clamping slice), or the whole sorted array.  The
argument `evals` stands for the output of `eigvals(T)` (or `eigvalsh(S)` on
the reversible path); both paths feed into the same sort and selection. -/
def eigenvalues (evals : List Cplx) (k : KSel) : Except (List ℕ) (List Cplx) :=
  let sorted := sortDescAbs evals
  match k with
  | .idx ks =>
      if ks.all (fun n => decide (n < sorted.length)) then
        .ok (ks.map (fun n => sorted.getD n (0, 0)))
      else
        .error ks
  | .top n => .ok (sorted.take n)
  | .all => .ok sorted

/-- Selection logic of `eigenvectors` (lines 214-238): the solver returns
eigenvalue/eigenvector-column pairs; the columns are permuted by decreasing
modulus of the eigenvalue.  An integer `k` takes the leading columns with a
clamping slice `eigvec[:, 0:k]`; an index collection uses fancy indexing,
which raises `IndexError` on an out-of-range index. -/
def eigenvectors (d : ℕ) (pairs : List (Cplx × (Fin d → Cplx))) (k : KSel) :
    Except (List ℕ) (List (Fin d → Cplx)) :=
  let sorted := (pairs.insertionSort (fun a b => absGe a.1 b.1)).map Prod.snd
  match k with
  | .all => .ok sorted
  | .top n => .ok (sorted.take n)
  | .idx ks =>
      if ks.all (fun n => decide (n < sorted.length)) then
        .ok (ks.map (fun n => sorted.getD n (fun _ => (0, 0))))
      else
        .error ks

/-- The per-eigenvalue conversion of `timescales_from_eigenvalues`
(lines 388-405): eigenvalues whose modulus is within absolute tolerance
`1e-14` of `1` (`np.isclose(np.abs(evals), 1.0, rtol=0.0, atol=1e-14)`)
are mapped to `+inf` (here `⊤` of `WithTop ℝ`), all others to
`-1.0 * tau / np.log(np.abs(lam))`, computed from the modulus only. -/
noncomputable def timescale_of (tau : ℝ) (lam : Cplx) : WithTop ℝ :=
  open Classical in
  if |cabs lam - 1| ≤ 1e-14 then ⊤
  else ((-1 * tau / Real.log (cabs lam) : ℝ) : WithTop ℝ)

/-- Model of `timescales_from_eigenvalues(evals, tau)`: one implied timescale per
eigenvalue, in the same order.  The source fills a result array through the
boolean mask `ind_abs_one` and its complement; elementwise this is exactly
the map of `timescale_of` over the input.  (The two emitted warnings do not
alter the return value.) -/
noncomputable def timescales_from_eigenvalues (evals : List Cplx) (tau : ℝ) :
    List (WithTop ℝ) :=
  evals.map (timescale_of tau)

/-- A dense real vector. -/
abbrev Vec (d : ℕ) : Type := Fin d → ℝ

/-- Euclidean norm, `np.linalg.norm`. -/
noncomputable def vnorm {d : ℕ} (v : Vec d) : ℝ := Real.sqrt (∑ i, v i ^ 2)

/-- Payload of the `RuntimeError` raised by `backward_iteration`: the message
interpolates the iteration budget `maxiter` and the final residuum `r`. -/
structure ConvFail : Type where
  iterations : ℕ
  residuum : ℝ

/-- The `for i in range(maxiter)` loop of `backward_iteration` (lines 73-80):
solve against the current normalized iterate, renormalize, return once the
reciprocal norm drops to the tolerance, and raise after the budget is
exhausted, reporting the budget `mi` and the final residuum.  `solve` stands
for `lu_solve(lupiv, .)`, the factored solve against `T = A - mu*I`. -/
noncomputable def bi_loop {d : ℕ} (solve : Vec d → Vec d) (tol : ℝ) (mi : ℕ) :
    Vec d → ℝ → ℕ → Except ConvFail (Vec d)
  | _, r, 0 => .error ⟨mi, r⟩
  | y, _, fuel + 1 =>
      let x := solve y
      let r := 1 / vnorm x
      open Classical in
      if r ≤ tol then .ok (r • x) else bi_loop solve tol mi (r • x) r fuel

/-- Model of `backward_iteration(A, mu, x0, tol, maxiter)` (lines 44-80), with the
LU-factored solve against `T = A - mu*np.eye(n)` abstracted into `solve`:
start from `y0 = x0 / ||x0||`, `r0 = 1 / ||x0||`, and iterate. -/
noncomputable def backward_iteration {d : ℕ} (solve : Vec d → Vec d) (x0 : Vec d)
    (tol : ℝ) (maxiter : ℕ) : Except ConvFail (Vec d) :=
  bi_loop solve tol maxiter ((1 / vnorm x0) • x0) (1 / vnorm x0) maxiter

/-- The normalized iterate `y_k` of backward iteration (`y_0 = x0/||x0||`;
`y_{k+1}` renormalizes `solve(y_k)`). -/
noncomputable def biY {d : ℕ} (solve : Vec d → Vec d) (x0 : Vec d) : ℕ → Vec d
  | 0 => (1 / vnorm x0) • x0
  | n + 1 => (1 / vnorm (solve (biY solve x0 n))) • solve (biY solve x0 n)

/-- The residual sequence of backward iteration: `r_0 = 1/||x0||` and
`r_{k+1} = 1/||solve(y_k)||`, the reciprocal norm tracked by the loop. -/
noncomputable def biR {d : ℕ} (solve : Vec d → Vec d) (x0 : Vec d) : ℕ → ℝ
  | 0 => 1 / vnorm x0
  | n + 1 => 1 / vnorm (solve (biY solve x0 n))

/-- Division of a vector by the sum of its entries (`pi = y / y.sum()`). -/
noncomputable def normalizeSum {d : ℕ} (y : Vec d) : Vec d :=
  fun i => y i / ∑ j, y j

/-- Model of `stationary_distribution_from_backward_iteration(P, eps)` (lines 83-105):
run backward iteration with `x0 = np.ones`, `tol = 1e-14`, `maxiter = 100`
(the defaults of `backward_iteration`), then divide the result by its sum.
`solve` stands for the exact LU solve against `transpose(P) - (1-eps)*I`
with `eps = 1e-15`; the theorems about this function state that contract on
`solve` explicitly where they need it. -/
noncomputable def stationary_distribution_from_backward_iteration {d : ℕ}
    (solve : Vec d → Vec d) : Except ConvFail (Vec d) :=
  (backward_iteration solve (fun _ => 1) 1e-14 100).map normalizeSum

/-- Lexicographic order on complex scalars used by `np.argsort` on a complex
array: by real part, ties broken by imaginary part. -/
def cplxLexLe (a b : Cplx) : Prop := a.1 < b.1 ∨ (a.1 = b.1 ∧ a.2 ≤ b.2)

instance : DecidableRel cplxLexLe := fun a b =>
  inferInstanceAs (Decidable (_ ∨ _))

/-- The left-eigenvector column selected by
`stationary_distribution_from_eigenvector`: the solver output pairs
(eigenvalue, eigenvector column) are permuted by `np.argsort(val)[::-1]`
(descending by raw complex value, not by modulus), and the first column of
the permuted matrix is taken. -/
def left_evec_first {d : ℕ} (pairs : List (Cplx × (Fin d → Cplx))) :
    Fin d → Cplx :=
  ((pairs.insertionSort (fun a b => cplxLexLe b.1 a.1)).headI).2

/-- Model of `stationary_distribution_from_eigenvector(T)` (lines 108-135): take the
elementwise modulus of the dominant left eigenvector column (guarding
against the solver sign ambiguity) and l1-normalize.  `pairs` stands for the
output of `eig(T, left=True, right=False)`. -/
noncomputable def stationary_distribution_from_eigenvector {d : ℕ}
    (pairs : List (Cplx × (Fin d → Cplx))) : Vec d :=
  fun i => cabs (left_evec_first pairs i) / ∑ j, cabs (left_evec_first pairs j)

/-- A dense square real matrix of size `d`. -/
abbrev Mat (d : ℕ) : Type := Matrix (Fin d) (Fin d) ℝ

/-- Validity predicate for a transition matrix (data model, spec section 3):
each row sums to 1 and all entries are non-negative.  The routines do not
enforce it; the spec quantifies several properties over valid inputs. -/
def isStochastic {d : ℕ} (P : Mat d) : Prop :=
  (∀ i, ∑ j, P i j = 1) ∧ ∀ i j, 0 ≤ P i j

/-- Model of `np.sign` on a real scalar. -/
noncomputable def np_sign (x : ℝ) : ℝ :=
  open Classical in
  if 0 < x then 1 else if x < 0 then -1 else 0

/-- The `norm == 'standard'` branch of `rdl_decomposition` (lines 292-302).
`R` is the eigenvector matrix output by `eig(T)` already permuted by
decreasing eigenvalue modulus, `w` the co-permuted eigenvalues (kept real
here; the claims under verification concern the real-spectrum case), and
`L` the output of `solve(np.transpose(R), np.eye(d))`, constrained in the
theorems by its contract `Rᵀ * L = 1`.  The column/row pair for eigenvalue
index 0 is rescaled: `R[:,0] *= sum(L[:,0])`, `L[:,0] /= sum(L[:,0])`; the
function returns `(R, D, np.transpose(L))`. -/
noncomputable def rdl_standard {d : ℕ} [NeZero d] (w : Vec d) (R L : Mat d) :
    Mat d × Mat d × Mat d :=
  let s := ∑ i, L i 0
  let R2 := Matrix.of fun i j : Fin d => if j = 0 then R i j * s else R i j
  let L2 := Matrix.of fun i j : Fin d => if j = 0 then L i j / s else L i j
  (R2, Matrix.diagonal w, L2.transpose)

/-- The l1-normalization `mu = nu / np.sum(nu)` of the `norm = 'reversible'`
branch, where `nu` is the output of `solve(np.transpose(R), b)`, `b = e_0`. -/
noncomputable def rdl_rev_mu {d : ℕ} (nu : Vec d) : Vec d :=
  fun i => nu i / ∑ j, nu j

/-- The sign fix `R[:,0] = R[:,0] / np.sign(R[0,0])` of the reversible
branch (line 314). -/
noncomputable def rdl_rev_R1 {d : ℕ} [NeZero d] (R : Mat d) : Mat d :=
  Matrix.of fun i j : Fin d =>
    if j = 0 then R i j / np_sign (R 0 0) else R i j

/-- The step `L = mu[:,np.newaxis] * R` of the reversible branch (line 317), applied
to the sign-fixed `R`. -/
noncomputable def rdl_rev_L {d : ℕ} [NeZero d] (R : Mat d) (nu : Vec d) : Mat d :=
  Matrix.of fun i j : Fin d => rdl_rev_mu nu i * rdl_rev_R1 R i j

/-- The diagonal overlap `s = np.diag(np.dot(np.transpose(L), R))` of the
reversible branch (line 320). -/
noncomputable def rdl_rev_s {d : ℕ} [NeZero d] (R : Mat d) (nu : Vec d) : Vec d :=
  fun j => ∑ i, rdl_rev_L R nu i j * rdl_rev_R1 R i j

/-- The `norm == 'reversible'` branch of `rdl_decomposition` (lines 305-329):
l1-normalize `nu` into `mu`, fix the sign of the first column of `R`, set
`L = mu[:,None] * R`, compute the overlap `s = diag(Lᵀ R)`, rescale the
columns of both `R` and `L` by `1/sqrt(s)`, and return
`(R, D, np.transpose(L))`. -/
noncomputable def rdl_reversible {d : ℕ} [NeZero d] (w : Vec d) (R : Mat d) (nu : Vec d) :
    Mat d × Mat d × Mat d :=
  let Rf := Matrix.of fun i j : Fin d =>
    rdl_rev_R1 R i j / Real.sqrt (rdl_rev_s R nu j)
  let Lf := Matrix.of fun i j : Fin d =>
    rdl_rev_L R nu i j / Real.sqrt (rdl_rev_s R nu j)
  (Rf, Matrix.diagonal w, Lf.transpose)

/-- The `ValueError` message raised by `rdl_decomposition` for an
unrecognized normalization keyword. -/
def rdlNormErr : String := "Keyword norm has to be either standard or reversible"

/-- Model of `rdl_decomposition(T, norm)` (lines 241-331), `k = None`: `w` and `R`
stand for the sorted output of `eig(T)`; `L` for the solve result of the
standard branch, `nu` for the solve result of the reversible branch (each
used only by its branch, mirroring the lazy solves of the source);
`isRev` for the external reversibility predicate consulted by
`norm == 'auto'`.  Unrecognized keywords raise `ValueError`.  (The optional
truncation of the returned triple to the first `k` columns/rows is not
modelled; no claim under verification depends on it.) -/
noncomputable def rdl_decomposition {d : ℕ} [NeZero d] (w : Vec d) (R L : Mat d)
    (nu : Vec d) (isRev : Bool) (norm : String) :
    Except String (Mat d × Mat d × Mat d) :=
  let norm2 := if norm = "auto"
    then (if isRev then "reversible" else "standard") else norm
  if norm2 = "standard" then .ok (rdl_standard w R L)
  else if norm2 = "reversible" then .ok (rdl_reversible w R nu)
  else .error rdlNormErr

/-- The transition matrix of the C1 counterexample: a valid row-stochastic
matrix describing a nearly reducible two-state chain whose second eigenvalue
`1 - 1e-14` lies within the backward-iteration shift's convergence window. -/
noncomputable def cexP : Mat 2 :=
  Matrix.of fun i j : Fin 2 =>
    if i = 0 then (if j = 0 then 1 - 96 / 10 ^ 16 else 96 / 10 ^ 16)
    else (if j = 0 then 4 / 10 ^ 16 else 1 - 4 / 10 ^ 16)

/-- The exact inverse of the shifted matrix
`transpose(cexP) - (1 - 1e-15) * I` factored by `backward_iteration`. -/
noncomputable def cexTinv : Mat 2 :=
  Matrix.of fun i j : Fin 2 =>
    (10 ^ 14 : ℝ) *
      (if i = 0 then (if j = 0 then -2 / 3 else 4 / 9)
       else (if j = 0 then 32 / 3 else 86 / 9))

/-- The exact LU solve against `transpose(cexP) - (1 - 1e-15) * I`, the
primitive consumed by `stationary_distribution_from_backward_iteration`
on the C1 counterexample input. -/
noncomputable def cexSolve (y : Vec 2) : Vec 2 := cexTinv.mulVec y

/-- The vector actually returned by
`stationary_distribution_from_backward_iteration` on the C1 counterexample:
its first entry is negative. -/
noncomputable def cexPi : Vec 2 := fun i => if i = 0 then -1 / 90 else 91 / 90

/-- The exact solve of `cexTinv * ones`, the unnormalized iterate produced
by the single backward-iteration step of the C1 counterexample. -/
noncomputable def cexW : Vec 2 :=
  fun i => if i = 0 then -(2 / 9) * 10 ^ 14 else 182 / 9 * 10 ^ 14

/-- Eigenvector-matrix input of the C5 counterexample: orthonormal columns
(a plausible `eig` output), but not orthogonal under the weighted inner
product defined by `mu`. -/
noncomputable def cexR5 : Mat 2 :=
  Matrix.of fun i j : Fin 2 =>
    if i = 0 then (if j = 0 then 4 / 5 else 3 / 5)
    else (if j = 0 then 3 / 5 else -4 / 5)

/-- Solve-result input of the C5 counterexample: the exact solution of
`transpose(cexR5) * nu = e_0`. -/
noncomputable def cexNu5 : Vec 2 := fun i => if i = 0 then 4 / 5 else 3 / 5

/-- Eigenvector-matrix input of the C9 counterexample: the sorted `eig`
output for the diagonal matrix `diag(1, 2)`, whose dominant eigenvector has
first entry 0. -/
noncomputable def cexR9 : Mat 2 :=
  Matrix.of fun i j : Fin 2 => if i = j then 0 else 1

/-- Solve-result input of the C9 counterexample: the exact solution of
`transpose(cexR9) * nu = e_0`. -/
noncomputable def cexNu9 : Vec 2 := fun i => if i = 0 then 0 else 1

/-- The first standard basis vector, `b` with `b[0] = 1.0` (line 306-307). -/
noncomputable def e0 {d : ℕ} : Vec d := fun i => if (i : ℕ) = 0 then 1 else 0

/-! Theorems.  Helper lemmas first, then the claim theorems, their
witnesses and counterexamples. -/

theorem cabs_eq_sqrt_absSq (z : Cplx) : cabs z = Real.sqrt ((absSq z : ℚ) : ℝ) := by
  unfold cabs absSq
  push_cast
  rfl

theorem cabs_le_cabs {a b : Cplx} (h : absSq a ≤ absSq b) : cabs a ≤ cabs b := by
  rw [cabs_eq_sqrt_absSq, cabs_eq_sqrt_absSq]
  exact Real.sqrt_le_sqrt (by exact_mod_cast h)

/-- C2: for every square matrix `T` (with `k` absent, for both values of the
reversibility flag), the sequence returned by `eigenvalues(T)` is ordered by
non-increasing absolute value: every pair of entries in order, in particular
every adjacent pair, satisfies `cabs later ≤ cabs earlier`.  The list
`evals` ranges over arbitrary solver outputs, covering both the general and
the symmetric eigenvalue solver. -/
theorem C2_eigenvalues_sorted (evals : List Cplx) :
    eigenvalues evals KSel.all = .ok (sortDescAbs evals) ∧
    (sortDescAbs evals).Sorted (fun a b => cabs b ≤ cabs a) := by
  refine ⟨rfl, ?_⟩
  have h := List.sorted_insertionSort absGe evals
  exact h.imp (fun hab => cabs_le_cabs hab)

/-- C7: with an explicit index collection `k`, `eigenvalues` returns exactly
the entries of the magnitude-sorted array at those positions when every
index is in range, and fails with the `ValueError` carrying `k` as soon as
some index is out of range. -/
theorem C7_eigenvalues_idx (evals : List Cplx) (ks : List ℕ) :
    ((∀ n ∈ ks, n < (sortDescAbs evals).length) →
      eigenvalues evals (KSel.idx ks) =
        .ok (ks.map (fun n => (sortDescAbs evals).getD n (0, 0)))) ∧
    ((∃ n ∈ ks, ¬ n < (sortDescAbs evals).length) →
      eigenvalues evals (KSel.idx ks) = .error ks) := by
  constructor
  · intro h
    unfold eigenvalues
    dsimp only
    rw [if_pos]
    rw [List.all_eq_true]
    intro n hn
    exact decide_eq_true (h n hn)
  · rintro ⟨n, hn, hlt⟩
    unfold eigenvalues
    dsimp only
    rw [if_neg]
    intro hall
    rw [List.all_eq_true] at hall
    exact hlt (of_decide_eq_true (hall n hn))

/-- Witness for C7: on the sorted 3-element spectrum `[3, 2, 1]` the
selector `[0, 2]` returns exactly positions 0 and 2, and the selector `[99]`
fails with the invalid-argument error reporting `[99]`. -/
theorem length_sortDescAbs (l : List Cplx) :
    (sortDescAbs l).length = l.length :=
  List.length_insertionSort absGe l

theorem C7_witness :
    eigenvalues [((1 : ℚ), (0 : ℚ)), (3, 0), (2, 0)] (KSel.idx [0, 2]) =
      .ok [(3, 0), (1, 0)] ∧
    eigenvalues [((1 : ℚ), (0 : ℚ)), (3, 0), (2, 0)] (KSel.idx [99]) =
      .error [99] := by
  have hsort : sortDescAbs [((1 : ℚ), (0 : ℚ)), (3, 0), (2, 0)] =
      [(3, 0), (2, 0), (1, 0)] := by
    norm_num [sortDescAbs, List.insertionSort, List.orderedInsert, absGe, absSq]
  constructor
  · rw [(C7_eigenvalues_idx [((1 : ℚ), (0 : ℚ)), (3, 0), (2, 0)] [0, 2]).1
      (by rw [length_sortDescAbs]; intro n hn; fin_cases hn <;> norm_num)]
    rw [hsort]
    rfl
  · exact (C7_eigenvalues_idx [((1 : ℚ), (0 : ℚ)), (3, 0), (2, 0)] [99]).2
      ⟨99, by norm_num, by rw [length_sortDescAbs]; norm_num⟩

/-- C10: for an integer selector `k` larger than the dimension, both
`eigenvalues` and `eigenvectors` silently return all available entries (the
Python slice `[:k]` clamps); no out-of-range error for an integer `k`. -/
theorem C10_int_selector_clamps (d : ℕ) (evals : List Cplx)
    (pairs : List (Cplx × (Fin d → Cplx))) (k : ℕ)
    (h1 : evals.length < k) (h2 : pairs.length < k) :
    eigenvalues evals (KSel.top k) = eigenvalues evals KSel.all ∧
    eigenvectors d pairs (KSel.top k) = eigenvectors d pairs KSel.all := by
  constructor
  · unfold eigenvalues
    dsimp only
    rw [List.take_of_length_le]
    rw [length_sortDescAbs]
    omega
  · unfold eigenvectors
    dsimp only
    rw [List.take_of_length_le]
    rw [List.length_map, List.length_insertionSort]
    omega

/-- Witness for C10: a 1-dimensional spectrum with `k = 5` returns all
entries on both functions. -/
theorem C10_witness :
    eigenvalues [((1 : ℚ), (0 : ℚ))] (KSel.top 5) =
      eigenvalues [((1 : ℚ), (0 : ℚ))] KSel.all ∧
    eigenvectors 1 [(((1 : ℚ), (0 : ℚ)), fun _ => (1, 0))] (KSel.top 5) =
      eigenvectors 1 [(((1 : ℚ), (0 : ℚ)), fun _ => (1, 0))] KSel.all :=
  C10_int_selector_clamps 1 [((1 : ℚ), (0 : ℚ))]
    [(((1 : ℚ), (0 : ℚ)), fun _ => (1, 0))] 5 (by norm_num) (by norm_num)

/-- C3: `timescales_from_eigenvalues` returns one entry per eigenvalue in
the same order; each entry is `+inf` when the modulus is within absolute
tolerance `1e-14` of one and `-tau / log(modulus)` otherwise (computed from
the modulus only); and on `[1.0, 0.5]` with `tau = 1` it returns
`[+inf, 1 / log 2]`. -/
theorem C3_timescales_spec :
    (∀ evals tau, (timescales_from_eigenvalues evals tau).length = evals.length)
    ∧ (∀ (lam : Cplx) evals tau,
        timescales_from_eigenvalues (lam :: evals) tau =
          timescale_of tau lam :: timescales_from_eigenvalues evals tau)
    ∧ (open Classical in ∀ tau lam,
        timescale_of tau lam =
          if |cabs lam - 1| ≤ 1e-14 then (⊤ : WithTop ℝ)
          else ((-1 * tau / Real.log (cabs lam) : ℝ) : WithTop ℝ))
    ∧ timescales_from_eigenvalues [((1 : ℚ), (0 : ℚ)), (1 / 2, 0)] 1 =
        [⊤, (((Real.log 2)⁻¹ : ℝ) : WithTop ℝ)] := by
  have habs1 : cabs ((1 : ℚ), (0 : ℚ)) = 1 := by
    unfold cabs
    norm_num
  have habshalf : cabs ((1 / 2 : ℚ), (0 : ℚ)) = 1 / 2 := by
    unfold cabs
    push_cast
    rw [show ((1 / 2 : ℝ) ^ 2 + 0 ^ 2 : ℝ) = (1 / 2) ^ 2 by norm_num]
    exact Real.sqrt_sq (by norm_num)
  refine ⟨fun evals tau => List.length_map _ _, fun lam evals tau => rfl,
    fun tau lam => by unfold timescale_of; split_ifs <;> rfl, ?_⟩
  unfold timescales_from_eigenvalues
  rw [List.map_cons, List.map_cons, List.map_nil]
  have h1 : timescale_of 1 ((1 : ℚ), (0 : ℚ)) = ⊤ := by
    unfold timescale_of
    rw [if_pos]
    rw [habs1]
    norm_num
  have hlog2 : Real.log 2 ≠ 0 := ne_of_gt (Real.log_pos (by norm_num))
  have h2 : timescale_of 1 ((1 / 2 : ℚ), (0 : ℚ)) =
      (((Real.log 2)⁻¹ : ℝ) : WithTop ℝ) := by
    unfold timescale_of
    rw [if_neg]
    · rw [habshalf]
      congr 1
      rw [show ((1 : ℝ) / 2) = 2⁻¹ by norm_num, Real.log_inv]
      field_simp
    · rw [habshalf]
      rw [abs_le]
      intro h
      have := h.1
      norm_num at this
  rw [h1, h2]

/-- C8: `rdl_decomposition` fails with the invalid-argument error exactly
when the normalization keyword is none of `standard`, `reversible`, `auto`,
and returns a triple for each of the three recognized keywords. -/
theorem C8_rdl_norm_validation {d : ℕ} [NeZero d] (w : Vec d) (R L : Mat d)
    (nu : Vec d) (isRev : Bool) (norm : String) :
    ((∃ t, rdl_decomposition w R L nu isRev norm = .ok t) ↔
      (norm = "standard" ∨ norm = "reversible" ∨ norm = "auto")) ∧
    (rdl_decomposition w R L nu isRev norm = .error rdlNormErr ↔
      ¬(norm = "standard" ∨ norm = "reversible" ∨ norm = "auto")) := by
  unfold rdl_decomposition
  by_cases ha : norm = "auto"
  · subst ha
    cases isRev <;> simp
  · by_cases hs : norm = "standard"
    · subst hs
      simp
    · by_cases hr : norm = "reversible"
      · subst hr
        simp
      · simp [ha, hs, hr]

/-- Witness for C8: in dimension two, the recognized keyword `standard`
does not produce the invalid-argument error, and the unrecognized keyword
`bogus` produces no triple. -/
theorem C8_witness :
    (rdl_decomposition (fun _ : Fin 2 => (0 : ℝ)) 1 1 (fun _ => 0) false
        "standard" = .error rdlNormErr ↔
      ¬("standard" = "standard" ∨ "standard" = "reversible" ∨
        "standard" = "auto")) ∧
    ((∃ t, rdl_decomposition (fun _ : Fin 2 => (0 : ℝ)) 1 1 (fun _ => 0) false
        "bogus" = .ok t) ↔
      ("bogus" = "standard" ∨ "bogus" = "reversible" ∨ "bogus" = "auto")) :=
  ⟨(C8_rdl_norm_validation (fun _ : Fin 2 => (0 : ℝ)) 1 1 (fun _ => 0) false
      "standard").2,
    (C8_rdl_norm_validation (fun _ : Fin 2 => (0 : ℝ)) 1 1 (fun _ => 0) false
      "bogus").1⟩

theorem bi_loop_succ {d : ℕ} (solve : Vec d → Vec d) (tol : ℝ) (mi : ℕ)
    (y : Vec d) (r : ℝ) (n : ℕ) :
    bi_loop solve tol mi y r (n + 1) =
      (open Classical in
        if 1 / vnorm (solve y) ≤ tol then
          .ok ((1 / vnorm (solve y)) • solve y)
        else
          bi_loop solve tol mi ((1 / vnorm (solve y)) • solve y)
            (1 / vnorm (solve y)) n) := rfl

theorem biR_succ {d : ℕ} (solve : Vec d → Vec d) (x0 : Vec d) (m : ℕ) :
    biR solve x0 (m + 1) = 1 / vnorm (solve (biY solve x0 m)) := rfl

theorem biY_succ {d : ℕ} (solve : Vec d → Vec d) (x0 : Vec d) (m : ℕ) :
    biY solve x0 (m + 1) =
      (1 / vnorm (solve (biY solve x0 m))) • solve (biY solve x0 m) := rfl

theorem biY_eq_smul {d : ℕ} (solve : Vec d → Vec d) (x0 : Vec d) (m : ℕ) :
    biY solve x0 (m + 1) = biR solve x0 (m + 1) • solve (biY solve x0 m) := rfl

theorem bi_loop_not_conv {d : ℕ} (solve : Vec d → Vec d) (x0 : Vec d)
    (tol : ℝ) (mi : ℕ) (fuel : ℕ) :
    ∀ m, (∀ k, m < k → k ≤ m + fuel → tol < biR solve x0 k) →
      bi_loop solve tol mi (biY solve x0 m) (biR solve x0 m) fuel =
        .error ⟨mi, biR solve x0 (m + fuel)⟩ := by
  induction fuel with
  | zero =>
      intro m _
      simp [bi_loop]
  | succ n ih =>
      intro m h
      rw [bi_loop_succ, ← biR_succ solve x0 m, ← biY_eq_smul solve x0 m]
      rw [if_neg (not_le.2 (h (m + 1) (by omega) (by omega)))]
      rw [show m + (n + 1) = (m + 1) + n by omega]
      exact ih (m + 1) (fun k hk1 hk2 => h k (by omega) (by omega))

theorem bi_loop_conv {d : ℕ} (solve : Vec d → Vec d) (x0 : Vec d)
    (tol : ℝ) (mi : ℕ) (fuel : ℕ) :
    ∀ m K, m < K → K ≤ m + fuel → biR solve x0 K ≤ tol →
      (∀ j, m < j → j < K → tol < biR solve x0 j) →
      bi_loop solve tol mi (biY solve x0 m) (biR solve x0 m) fuel =
        .ok (biY solve x0 K) := by
  induction fuel with
  | zero =>
      intro m K h1 h2 _ _
      exact absurd (h1.trans_le h2) (by omega)
  | succ n ih =>
      intro m K h1 h2 h3 h4
      rw [bi_loop_succ, ← biR_succ solve x0 m, ← biY_eq_smul solve x0 m]
      by_cases hc : biR solve x0 (m + 1) ≤ tol
      · rw [if_pos hc]
        have hK : K = m + 1 := by
          by_contra hne
          exact absurd hc (not_le.2 (h4 (m + 1) (by omega) (by omega)))
        rw [hK]
      · rw [if_neg hc]
        have hK : m + 1 < K := by
          rcases Nat.lt_or_ge (m + 1) K with hlt | hge
          · exact hlt
          · exact absurd h3 (by rw [show K = m + 1 by omega]; exact hc)
        exact ih (m + 1) K hK (by omega) h3
          (fun j hj1 hj2 => h4 j (by omega) hj2)

theorem bi_converged_ok {d : ℕ} (solve : Vec d → Vec d) (x0 : Vec d)
    (tol : ℝ) (mi : ℕ)
    (h : ∃ k, 0 < k ∧ k ≤ mi ∧ biR solve x0 k ≤ tol) :
    ∃ K, (0 < K ∧ K ≤ mi ∧ biR solve x0 K ≤ tol) ∧
      backward_iteration solve x0 tol mi = .ok (biY solve x0 K) := by
  classical
  refine ⟨Nat.find h, Nat.find_spec h, ?_⟩
  obtain ⟨hK1, hK2, hK3⟩ := Nat.find_spec h
  have hb : backward_iteration solve x0 tol mi =
      bi_loop solve tol mi (biY solve x0 0) (biR solve x0 0) mi := rfl
  rw [hb]
  refine bi_loop_conv solve x0 tol mi mi 0 (Nat.find h) hK1 (by omega) hK3 ?_
  intro j hj1 hj2
  have := Nat.find_min h hj2
  by_contra hle
  exact this ⟨hj1, by omega, not_lt.1 hle⟩

/-- C6: `backward_iteration` raises its convergence failure exactly when the
reciprocal norm never drops to `tol` or below within the `maxiter`
solve/renormalize iterations (the residual sequence is `biR`); any raised
error carries the iteration budget and the final residual; and when some
iteration reaches `r <= tol`, the first such normalized iterate is returned
and no error is raised. -/
theorem C6_backward_iteration_spec {d : ℕ} (solve : Vec d → Vec d)
    (x0 : Vec d) (tol : ℝ) (mi : ℕ) :
    (backward_iteration solve x0 tol mi = .error ⟨mi, biR solve x0 mi⟩ ↔
      ∀ k, 0 < k → k ≤ mi → tol < biR solve x0 k) ∧
    (∀ e, backward_iteration solve x0 tol mi = .error e →
      e = ⟨mi, biR solve x0 mi⟩) ∧
    (∀ K, 0 < K → K ≤ mi → biR solve x0 K ≤ tol →
      (∀ j, 0 < j → j < K → tol < biR solve x0 j) →
      backward_iteration solve x0 tol mi = .ok (biY solve x0 K)) := by
  have hb : backward_iteration solve x0 tol mi =
      bi_loop solve tol mi (biY solve x0 0) (biR solve x0 0) mi := rfl
  have herrOf : (∀ k, 0 < k → k ≤ mi → tol < biR solve x0 k) →
      backward_iteration solve x0 tol mi = .error ⟨mi, biR solve x0 mi⟩ := by
    intro h
    rw [hb]
    have := bi_loop_not_conv solve x0 tol mi mi 0
      (fun k hk1 hk2 => h k hk1 (by omega))
    simpa using this
  refine ⟨⟨?_, herrOf⟩, ?_, ?_⟩
  · intro herr k hk1 hk2
    by_contra hle
    obtain ⟨K, _, hok⟩ := bi_converged_ok solve x0 tol mi
      ⟨k, hk1, hk2, not_lt.1 hle⟩
    rw [herr] at hok
    exact Except.noConfusion hok
  · intro e he
    by_cases hall : ∀ k, 0 < k → k ≤ mi → tol < biR solve x0 k
    · have := herrOf hall
      rw [he] at this
      exact Except.error.inj this
    · push_neg at hall
      obtain ⟨k, hk1, hk2, hk3⟩ := hall
      obtain ⟨K, _, hok⟩ := bi_converged_ok solve x0 tol mi ⟨k, hk1, hk2, hk3⟩
      rw [he] at hok
      exact Except.noConfusion hok
  · intro K h1 h2 h3 h4
    rw [hb]
    exact bi_loop_conv solve x0 tol mi mi 0 K h1 (by omega) h3
      (fun j hj1 hj2 => h4 j hj1 hj2)

/-- Witness for C6: on a 1-dimensional instance with `solve = id` and a
loose tolerance the first iteration already satisfies `r <= tol`, and the
function returns the first normalized iterate with no error. -/
theorem C6_witness :
    backward_iteration (d := 1) id (fun _ => 1) 2 5 =
      .ok (biY id (fun _ => 1) 1) := by
  have hv : vnorm (fun _ : Fin 1 => (1 : ℝ)) = 1 := by
    unfold vnorm
    rw [Fin.sum_univ_one]
    norm_num
  have hy0 : biY (d := 1) id (fun _ => 1) 0 = (fun _ => 1) := by
    show (1 / vnorm (fun _ : Fin 1 => (1 : ℝ))) • (fun _ : Fin 1 => (1 : ℝ)) = _
    rw [hv]
    funext i
    simp
  refine (C6_backward_iteration_spec id (fun _ => 1) 2 5).2.2 1 (by norm_num)
    (by norm_num) ?_ ?_
  · rw [biR_succ, hy0]
    show 1 / vnorm (fun _ : Fin 1 => (1 : ℝ)) ≤ 2
    rw [hv]
    norm_num
  · intro j hj1 hj2
    omega

theorem vnorm_smul {d : ℕ} {c : ℝ} (hc : 0 ≤ c) (v : Vec d) :
    vnorm (c • v) = c * vnorm v := by
  unfold vnorm
  have h : ∑ i, (c • v) i ^ 2 = c ^ 2 * ∑ i, v i ^ 2 := by
    rw [Finset.mul_sum]
    refine Finset.sum_congr rfl (fun i _ => ?_)
    simp only [Pi.smul_apply, smul_eq_mul]
    ring
  rw [h, Real.sqrt_mul (by positivity), Real.sqrt_sq hc]

theorem cabs_nonneg (z : Cplx) : 0 ≤ cabs z := Real.sqrt_nonneg _

theorem cabs_pos {z : Cplx} (h : z ≠ ((0 : ℚ), (0 : ℚ))) : 0 < cabs z := by
  apply Real.sqrt_pos.2
  have h1 : z.1 ≠ 0 ∨ z.2 ≠ 0 := by
    by_contra hc
    push_neg at hc
    exact h (Prod.ext hc.1 hc.2)
  rcases h1 with h1 | h1
  · have h2 : ((z.1 : ℚ) : ℝ) ≠ 0 := by exact_mod_cast h1
    have h3 : 0 < ((z.1 : ℚ) : ℝ) ^ 2 :=
      lt_of_le_of_ne (sq_nonneg _) (Ne.symm (pow_ne_zero 2 h2))
    nlinarith [sq_nonneg ((z.2 : ℚ) : ℝ)]
  · have h2 : ((z.2 : ℚ) : ℝ) ≠ 0 := by exact_mod_cast h1
    have h3 : 0 < ((z.2 : ℚ) : ℝ) ^ 2 :=
      lt_of_le_of_ne (sq_nonneg _) (Ne.symm (pow_ne_zero 2 h2))
    nlinarith [sq_nonneg ((z.1 : ℚ) : ℝ)]

/-- C1 (amended): `stationary_distribution_from_eigenvector` returns a
vector that sums to one with all entries non-negative whenever the dominant
left eigenvector column returned by the solver is nonzero; and
`stationary_distribution_from_backward_iteration` returns the converged
iterate divided by its sum, which sums to one whenever that sum is nonzero.
(Non-negativity of the backward-iteration result does not hold for every
valid stochastic matrix; see the counterexample.) -/
theorem C1_amended :
    (∀ (d : ℕ) (pairs : List (Cplx × (Fin d → Cplx))),
      left_evec_first pairs ≠ (fun _ => ((0 : ℚ), (0 : ℚ))) →
      (∑ i, stationary_distribution_from_eigenvector pairs i = 1 ∧
        ∀ i, 0 ≤ stationary_distribution_from_eigenvector pairs i)) ∧
    (∀ (d : ℕ) (solve : Vec d → Vec d) (y : Vec d),
      backward_iteration solve (fun _ => 1) 1e-14 100 = .ok y →
      (∑ j, y j) ≠ 0 →
      (stationary_distribution_from_backward_iteration solve =
          .ok (normalizeSum y) ∧
        ∑ i, normalizeSum y i = 1)) := by
  constructor
  · intro d pairs h
    obtain ⟨i0, hi0⟩ := Function.ne_iff.1 h
    have hS : 0 < ∑ j, cabs (left_evec_first pairs j) := by
      refine Finset.sum_pos' (fun j _ => cabs_nonneg _) ?_
      exact ⟨i0, Finset.mem_univ i0, cabs_pos hi0⟩
    constructor
    · unfold stationary_distribution_from_eigenvector
      rw [← Finset.sum_div]
      exact div_self (ne_of_gt hS)
    · intro i
      exact div_nonneg (cabs_nonneg _) (le_of_lt hS)
  · intro d solve y hok hsum
    constructor
    · unfold stationary_distribution_from_backward_iteration
      rw [hok]
      rfl
    · unfold normalizeSum
      rw [← Finset.sum_div]
      exact div_self hsum

/-- Witness for C1: a 1-dimensional left-eigenvector input with nonzero
dominant column, and a 1-dimensional amplifying solve on which backward
iteration converges after one step; both normalized outputs sum to one. -/
theorem C1_witness :
    (∑ i, stationary_distribution_from_eigenvector
        [(((1 : ℚ), (0 : ℚ)), fun _ : Fin 1 => ((1 : ℚ), (0 : ℚ)))] i = 1 ∧
      ∀ i, 0 ≤ stationary_distribution_from_eigenvector
        [(((1 : ℚ), (0 : ℚ)), fun _ : Fin 1 => ((1 : ℚ), (0 : ℚ)))] i) ∧
    (stationary_distribution_from_backward_iteration
        (fun y : Vec 1 => (10 ^ 15 : ℝ) • y) =
      .ok (normalizeSum
        (biY (fun y : Vec 1 => (10 ^ 15 : ℝ) • y) (fun _ => 1) 1)) ∧
      ∑ i, normalizeSum
        (biY (fun y : Vec 1 => (10 ^ 15 : ℝ) • y) (fun _ => 1) 1) i = 1) := by
  have hv1 : vnorm (fun _ : Fin 1 => (1 : ℝ)) = 1 := by
    unfold vnorm
    rw [Fin.sum_univ_one]
    norm_num
  have hy0 : biY (fun y : Vec 1 => (10 ^ 15 : ℝ) • y) (fun _ => 1) 0 =
      (fun _ => 1) := by
    show (1 / vnorm (fun _ : Fin 1 => (1 : ℝ))) • (fun _ : Fin 1 => (1 : ℝ)) = _
    rw [hv1]
    funext i
    simp
  have hr1 : biR (fun y : Vec 1 => (10 ^ 15 : ℝ) • y) (fun _ => 1) 1 =
      1 / 10 ^ 15 := by
    rw [biR_succ]
    show 1 / vnorm ((10 ^ 15 : ℝ) •
      biY (fun y : Vec 1 => (10 ^ 15 : ℝ) • y) (fun _ => 1) 0) = _
    rw [hy0, vnorm_smul (by norm_num), hv1]
    norm_num
  have hconv : backward_iteration (fun y : Vec 1 => (10 ^ 15 : ℝ) • y)
      (fun _ => 1) 1e-14 100 =
      .ok (biY (fun y : Vec 1 => (10 ^ 15 : ℝ) • y) (fun _ => 1) 1) := by
    have hb : backward_iteration (fun y : Vec 1 => (10 ^ 15 : ℝ) • y)
        (fun _ => 1) 1e-14 100 =
        bi_loop (fun y : Vec 1 => (10 ^ 15 : ℝ) • y) 1e-14 100
          (biY (fun y : Vec 1 => (10 ^ 15 : ℝ) • y) (fun _ => 1) 0)
          (biR (fun y : Vec 1 => (10 ^ 15 : ℝ) • y) (fun _ => 1) 0) 100 := rfl
    rw [hb]
    refine bi_loop_conv _ _ _ _ 100 0 1 (by omega) (by omega) ?_ ?_
    · rw [hr1]
      norm_num
    · intro j hj1 hj2
      omega
  have hy1sum : ∑ i, biY (fun y : Vec 1 => (10 ^ 15 : ℝ) • y) (fun _ => 1) 1 i
      = 1 := by
    rw [Fin.sum_univ_one, biY_succ]
    show ((1 / vnorm ((10 ^ 15 : ℝ) •
      biY (fun y : Vec 1 => (10 ^ 15 : ℝ) • y) (fun _ => 1) 0)) •
      ((10 ^ 15 : ℝ) •
        biY (fun y : Vec 1 => (10 ^ 15 : ℝ) • y) (fun _ => 1) 0)) 0 = 1
    rw [hy0, vnorm_smul (by norm_num), hv1]
    simp only [Pi.smul_apply, smul_eq_mul]
    norm_num
  refine ⟨C1_amended.1 1 _ ?_, C1_amended.2 1 _ _ hconv (by rw [hy1sum]; norm_num)⟩
  intro h
  have h0 := congrFun h ⟨0, by omega⟩
  have : left_evec_first
      [(((1 : ℚ), (0 : ℚ)), fun _ : Fin 1 => ((1 : ℚ), (0 : ℚ)))]
      ⟨0, by omega⟩ = ((1 : ℚ), (0 : ℚ)) := rfl
  rw [this] at h0
  simp at h0

/-- Counterexample for C1 as stated: `cexP` is a valid row-stochastic
matrix (a nearly reducible two-state chain), `cexSolve` is the exact LU
solve against the shifted matrix `transpose(cexP) - (1 - 1e-15) * I`
factored by `backward_iteration`, yet
`stationary_distribution_from_backward_iteration` terminates successfully
and returns the vector `(-1/90, 91/90)`, whose first entry is negative. -/
theorem C1_counterexample :
    isStochastic cexP ∧
    (∀ y : Vec 2, (cexP.transpose - ((1 : ℝ) - 1e-15) • 1).mulVec
      (cexSolve y) = y) ∧
    stationary_distribution_from_backward_iteration cexSolve = .ok cexPi ∧
    cexPi 0 < 0 := by
  have hAB : (cexP.transpose - ((1 : ℝ) - 1e-15) • 1) * cexTinv = 1 := by
    ext i j
    fin_cases i <;> fin_cases j <;>
      simp [cexP, cexTinv, Matrix.mul_apply, Fin.sum_univ_two,
        Matrix.one_apply] <;>
      norm_num
  have hcontract : ∀ y : Vec 2,
      (cexP.transpose - ((1 : ℝ) - 1e-15) • 1).mulVec (cexSolve y) = y := by
    intro y
    unfold cexSolve
    rw [Matrix.mulVec_mulVec, hAB, Matrix.one_mulVec]
  have hstoch : isStochastic cexP := by
    constructor
    · intro i
      fin_cases i <;>
        norm_num [cexP, Fin.sum_univ_two]
    · intro i j
      fin_cases i <;> fin_cases j <;> simp [cexP] <;> norm_num
  have hv2 : vnorm (fun _ : Fin 2 => (1 : ℝ)) = Real.sqrt 2 := by
    unfold vnorm
    rw [Fin.sum_univ_two]
    norm_num
  have hw : cexTinv.mulVec (fun _ : Fin 2 => (1 : ℝ)) = cexW := by
    funext i
    fin_cases i <;>
      simp [cexTinv, cexW, Matrix.mulVec, Matrix.dotProduct,
        Fin.sum_univ_two] <;>
      norm_num
  have hNval : ∑ i, cexW i ^ 2 = 33128 / 81 * 10 ^ 28 := by
    rw [Fin.sum_univ_two]
    norm_num [cexW]
  have hvw : vnorm cexW = Real.sqrt (33128 / 81 * 10 ^ 28) := by
    unfold vnorm
    rw [hNval]
  have hs2pos : (0 : ℝ) < Real.sqrt 2 := Real.sqrt_pos.2 (by norm_num)
  have hsNpos : (0 : ℝ) < Real.sqrt (33128 / 81 * 10 ^ 28) :=
    Real.sqrt_pos.2 (by norm_num)
  have hy0 : biY cexSolve (fun _ => 1) 0 =
      (1 / Real.sqrt 2) • (fun _ : Fin 2 => (1 : ℝ)) := by
    show (1 / vnorm (fun _ : Fin 2 => (1 : ℝ))) • _ = _
    rw [hv2]
  have hsolve0 : cexSolve (biY cexSolve (fun _ => 1) 0) =
      (1 / Real.sqrt 2) • cexW := by
    rw [hy0]
    unfold cexSolve
    rw [Matrix.mulVec_smul, hw]
  have hr1 : biR cexSolve (fun _ => 1) 1 =
      Real.sqrt 2 / Real.sqrt (33128 / 81 * 10 ^ 28) := by
    have h2 : Real.sqrt 2 ≠ 0 := ne_of_gt hs2pos
    have hN : Real.sqrt (33128 / 81 * 10 ^ 28) ≠ 0 := ne_of_gt hsNpos
    rw [biR_succ, hsolve0, vnorm_smul (by positivity), hvw]
    field_simp
  have hr1le : biR cexSolve (fun _ => 1) 1 ≤ 1e-14 := by
    rw [hr1]
    rw [← Real.sqrt_div (by norm_num)]
    rw [show (1e-14 : ℝ) = Real.sqrt ((1e-14) ^ 2) from
      (Real.sqrt_sq (by norm_num)).symm]
    apply Real.sqrt_le_sqrt
    rw [div_le_iff (by norm_num)]
    norm_num
  have hconv : backward_iteration cexSolve (fun _ => 1) 1e-14 100 =
      .ok (biY cexSolve (fun _ => 1) 1) := by
    have hb : backward_iteration cexSolve (fun _ => 1) 1e-14 100 =
        bi_loop cexSolve 1e-14 100 (biY cexSolve (fun _ => 1) 0)
          (biR cexSolve (fun _ => 1) 0) 100 := rfl
    rw [hb]
    refine bi_loop_conv _ _ _ _ 100 0 1 (by omega) (by omega) hr1le ?_
    intro j hj1 hj2
    omega
  have hy1 : biY cexSolve (fun _ => 1) 1 =
      (Real.sqrt 2 / Real.sqrt (33128 / 81 * 10 ^ 28) * (1 / Real.sqrt 2)) •
        cexW := by
    rw [biY_eq_smul, hr1, hsolve0, smul_smul]
  have hcW : Real.sqrt 2 / Real.sqrt (33128 / 81 * 10 ^ 28) *
      (1 / Real.sqrt 2) ≠ 0 := by
    apply ne_of_gt
    apply mul_pos (div_pos hs2pos hsNpos)
    exact div_pos one_pos hs2pos
  have hnorm : normalizeSum (biY cexSolve (fun _ => 1) 1) = cexPi := by
    rw [hy1]
    funext i
    unfold normalizeSum
    rw [Fin.sum_univ_two]
    simp only [Pi.smul_apply, smul_eq_mul]
    rw [← mul_add, mul_div_mul_left _ _ hcW]
    fin_cases i <;> norm_num [cexW, cexPi]
  refine ⟨hstoch, hcontract, ?_, ?_⟩
  · unfold stationary_distribution_from_backward_iteration
    rw [hconv]
    show Except.ok (normalizeSum (biY cexSolve (fun _ => 1) 1)) = _
    rw [hnorm]
  · norm_num [cexPi]

theorem np_sign_pos {x : ℝ} (h : 0 < x) : np_sign x = 1 := by
  unfold np_sign
  rw [if_pos h]

theorem np_sign_neg {x : ℝ} (h : x < 0) : np_sign x = -1 := by
  unfold np_sign
  rw [if_neg (not_lt.2 (le_of_lt h)), if_pos h]

theorem np_sign_zero : np_sign 0 = 0 := by
  unfold np_sign
  rw [if_neg (lt_irrefl 0), if_neg (lt_irrefl 0)]

theorem transpose_mul_one_swap {d : ℕ} {R L : Mat d}
    (h : R.transpose * L = 1) : L.transpose * R = 1 := by
  have h2 := congrArg Matrix.transpose h
  rwa [Matrix.transpose_mul, Matrix.transpose_transpose,
    Matrix.transpose_one] at h2

/-- C4: with `norm = 'standard'`, the returned triple satisfies
`L * R = 1` and the first row of the returned `L` sums to one: the
rescaling of the eigenvalue-0 column/row pair preserves the inverse
relation established by the solve `L = inverse(transpose(R))`, provided the
rescaling factor `sum(L[:,0])` is nonzero. -/
theorem C4_rdl_standard {d : ℕ} [NeZero d] (w : Vec d) (R L : Mat d)
    (hsolve : R.transpose * L = 1) (hs : (∑ i, L i 0) ≠ 0) :
    (rdl_standard w R L).2.2 * (rdl_standard w R L).1 = 1 ∧
    ∑ j, (rdl_standard w R L).2.2 0 j = 1 := by
  have hLR : L.transpose * R = 1 := transpose_mul_one_swap hsolve
  have hmain : ∀ j k, ∑ i, L i j * R i k = (1 : Mat d) j k := by
    intro j k
    rw [← hLR, Matrix.mul_apply]
    simp [Matrix.transpose_apply]
  have h22 : (rdl_standard w R L).2.2 =
      (Matrix.of fun i j : Fin d =>
        if j = 0 then L i j / (∑ i2, L i2 0) else L i j).transpose := rfl
  have h1c : (rdl_standard w R L).1 =
      Matrix.of fun i j : Fin d =>
        if j = 0 then R i j * (∑ i2, L i2 0) else R i j := rfl
  constructor
  · rw [h22, h1c]
    ext j k
    rw [Matrix.mul_apply]
    simp only [Matrix.transpose_apply, Matrix.of_apply]
    by_cases hj : j = 0 <;> by_cases hk : k = 0
    · subst hj
      subst hk
      have : ∀ i, L i 0 / (∑ i2, L i2 0) * (R i 0 * (∑ i2, L i2 0)) =
          L i 0 * R i 0 := by
        intro i
        field_simp
        ring
      rw [Finset.sum_congr rfl (fun i _ => by rw [if_pos rfl, if_pos rfl, this i])]
      rw [hmain 0 0]
    · subst hj
      have : ∀ i, (L i 0 / (∑ i2, L i2 0)) * R i k =
          (L i 0 * R i k) / (∑ i2, L i2 0) := by
        intro i
        ring
      rw [Finset.sum_congr rfl
        (fun i _ => by rw [if_pos rfl, if_neg hk, this i])]
      rw [← Finset.sum_div, hmain 0 k]
      simp [Matrix.one_apply, Ne.symm hk, hk]
    · subst hk
      have : ∀ i, L i j * (R i 0 * (∑ i2, L i2 0)) =
          (L i j * R i 0) * (∑ i2, L i2 0) := by
        intro i
        ring
      rw [Finset.sum_congr rfl
        (fun i _ => by rw [if_neg hj, if_pos rfl, this i])]
      rw [← Finset.sum_mul, hmain j 0]
      simp [Matrix.one_apply, hj]
    · rw [Finset.sum_congr rfl
        (fun i _ => by rw [if_neg hj, if_neg hk])]
      exact hmain j k
  · rw [h22]
    simp only [Matrix.transpose_apply, Matrix.of_apply, eq_self_iff_true,
      if_true]
    rw [← Finset.sum_div]
    exact div_self hs

/-- Witness for C4: the identity solver output in dimension one; the
returned triple multiplies to the identity and the first left row sums to
one. -/
theorem C4_witness :
    (rdl_standard (fun _ : Fin 1 => (0 : ℝ)) 1 1).2.2 *
      (rdl_standard (fun _ : Fin 1 => (0 : ℝ)) 1 1).1 = 1 ∧
    ∑ j, (rdl_standard (fun _ : Fin 1 => (0 : ℝ)) 1 1).2.2 0 j = 1 :=
  C4_rdl_standard (fun _ => 0) 1 1 (by simp)
    (by rw [Fin.sum_univ_one]; simp [Matrix.one_apply])

/-- C5 (amended): with `norm = 'reversible'` the returned triple always
satisfies `L = diag(mu) * R` for the l1-normalized `mu`, and - provided
every diagonal overlap `s j` is positive - the rescaling by `1/sqrt(s)`
makes every diagonal entry of `transpose(L) * R` exactly one;
`transpose(L) * R` is the full identity exactly under the additional
hypothesis that distinct columns of `R` are orthogonal in the
`mu`-weighted inner product (which holds for a reversible transition
matrix with nondegenerate spectrum, but not for arbitrary inputs). -/
theorem C5_rdl_reversible_amended {d : ℕ} [NeZero d] (w : Vec d) (R : Mat d)
    (nu : Vec d) (hs : ∀ j, 0 < rdl_rev_s R nu j)
    (horth : ∀ j k, j ≠ k →
      ∑ i, rdl_rev_L R nu i j * rdl_rev_R1 R i k = 0) :
    (rdl_reversible w R nu).2.2 * (rdl_reversible w R nu).1 = 1 ∧
    (rdl_reversible w R nu).2.2.transpose =
      Matrix.diagonal (rdl_rev_mu nu) * (rdl_reversible w R nu).1 := by
  have hRf : (rdl_reversible w R nu).1 = Matrix.of
      (fun i j : Fin d => rdl_rev_R1 R i j / Real.sqrt (rdl_rev_s R nu j)) :=
    rfl
  have hLf : (rdl_reversible w R nu).2.2 = (Matrix.of
      (fun i j : Fin d =>
        rdl_rev_L R nu i j / Real.sqrt (rdl_rev_s R nu j))).transpose := rfl
  have hsqrt : ∀ j, 0 < Real.sqrt (rdl_rev_s R nu j) :=
    fun j => Real.sqrt_pos.2 (hs j)
  constructor
  · rw [hRf, hLf]
    ext j k
    rw [Matrix.mul_apply]
    simp only [Matrix.transpose_apply, Matrix.of_apply]
    have hterm : ∀ i,
        rdl_rev_L R nu i j / Real.sqrt (rdl_rev_s R nu j) *
          (rdl_rev_R1 R i k / Real.sqrt (rdl_rev_s R nu k)) =
        rdl_rev_L R nu i j * rdl_rev_R1 R i k /
          (Real.sqrt (rdl_rev_s R nu j) * Real.sqrt (rdl_rev_s R nu k)) := by
      intro i
      ring
    rw [Finset.sum_congr rfl (fun i _ => hterm i), ← Finset.sum_div]
    by_cases hjk : j = k
    · subst hjk
      have hnum : ∑ i, rdl_rev_L R nu i j * rdl_rev_R1 R i j =
          rdl_rev_s R nu j := rfl
      rw [hnum, Real.mul_self_sqrt (le_of_lt (hs j)), div_self (ne_of_gt (hs j))]
      simp [Matrix.one_apply]
    · rw [horth j k hjk, zero_div]
      simp [Matrix.one_apply, hjk]
  · rw [hRf, hLf]
    ext i j
    simp only [Matrix.transpose_transpose, Matrix.of_apply,
      Matrix.diagonal_mul]
    unfold rdl_rev_L
    simp only [Matrix.of_apply]
    ring

/-- Witness for C5: a one-dimensional instance with positive overlap; the
returned triple satisfies both invariants. -/
theorem C5_witness :
    (rdl_reversible (fun _ : Fin 1 => (0 : ℝ))
        (Matrix.of fun _ _ : Fin 1 => (2 : ℝ)) (fun _ => 1)).2.2 *
      (rdl_reversible (fun _ : Fin 1 => (0 : ℝ))
        (Matrix.of fun _ _ : Fin 1 => (2 : ℝ)) (fun _ => 1)).1 = 1 ∧
    (rdl_reversible (fun _ : Fin 1 => (0 : ℝ))
        (Matrix.of fun _ _ : Fin 1 => (2 : ℝ)) (fun _ => 1)).2.2.transpose =
      Matrix.diagonal (rdl_rev_mu (fun _ : Fin 1 => (1 : ℝ))) *
        (rdl_reversible (fun _ : Fin 1 => (0 : ℝ))
          (Matrix.of fun _ _ : Fin 1 => (2 : ℝ)) (fun _ => 1)).1 := by
  refine C5_rdl_reversible_amended (fun _ => 0) _ _ ?_ ?_
  · intro j
    have : rdl_rev_s (Matrix.of fun _ _ : Fin 1 => (2 : ℝ)) (fun _ => 1) j =
        4 := by
      unfold rdl_rev_s rdl_rev_L rdl_rev_R1 rdl_rev_mu np_sign
      rw [Fin.sum_univ_one]
      norm_num
    rw [this]
    norm_num
  · intro j k hjk
    exact absurd (Subsingleton.elim j k) hjk

/-- Counterexample for C5 as stated: `cexR5` has orthonormal columns (a
plausible eigenvector-matrix output) and `cexNu5` is the exact solution of
the linear system `transpose(R) * nu = e_0`, yet for the triple returned
with `norm = 'reversible'` the product `transpose(L) * R` is not the
identity matrix: its (0,1) entry is strictly positive because the columns
of `R` are not orthogonal in the `mu`-weighted inner product. -/
theorem C5_counterexample :
    cexR5.transpose.mulVec cexNu5 = e0 ∧
    ¬((rdl_reversible (fun _ : Fin 2 => (0 : ℝ)) cexR5 cexNu5).2.2 *
        (rdl_reversible (fun _ : Fin 2 => (0 : ℝ)) cexR5 cexNu5).1 = 1) := by
  have hcontract : cexR5.transpose.mulVec cexNu5 = e0 := by
    funext i
    fin_cases i <;>
      norm_num [cexR5, cexNu5, e0, Matrix.mulVec, Matrix.dotProduct,
        Fin.sum_univ_two]
  have hmu0 : rdl_rev_mu cexNu5 0 = 4 / 7 := by
    unfold rdl_rev_mu
    rw [Fin.sum_univ_two]
    norm_num [cexNu5]
  have hmu1 : rdl_rev_mu cexNu5 1 = 3 / 7 := by
    unfold rdl_rev_mu
    rw [Fin.sum_univ_two]
    norm_num [cexNu5]
  have hc00 : cexR5 0 0 = 4 / 5 := by norm_num [cexR5]
  have hc01 : cexR5 0 1 = 3 / 5 := by norm_num [cexR5]
  have hc10 : cexR5 1 0 = 3 / 5 := by norm_num [cexR5]
  have hc11 : cexR5 1 1 = -(4 / 5) := by norm_num [cexR5]
  have hsign : np_sign (cexR5 0 0) = 1 := by
    rw [hc00]
    exact np_sign_pos (by norm_num)
  have hR1 : ∀ i j, rdl_rev_R1 cexR5 i j = cexR5 i j := by
    intro i j
    unfold rdl_rev_R1
    simp only [Matrix.of_apply]
    by_cases hj : j = 0
    · rw [if_pos hj, hsign]
      norm_num
    · rw [if_neg hj]
  have hL : ∀ i j, rdl_rev_L cexR5 cexNu5 i j =
      rdl_rev_mu cexNu5 i * cexR5 i j := by
    intro i j
    unfold rdl_rev_L
    simp only [Matrix.of_apply]
    rw [hR1]
  have hs0 : rdl_rev_s cexR5 cexNu5 0 = 13 / 25 := by
    unfold rdl_rev_s
    rw [Fin.sum_univ_two, hL, hL, hR1, hR1, hmu0, hmu1, hc00, hc10]
    norm_num
  have hs1 : rdl_rev_s cexR5 cexNu5 1 = 12 / 25 := by
    unfold rdl_rev_s
    rw [Fin.sum_univ_two, hL, hL, hR1, hR1, hmu0, hmu1, hc01, hc11]
    norm_num
  have hsq0 : (0 : ℝ) < Real.sqrt (13 / 25) := Real.sqrt_pos.2 (by norm_num)
  have hsq1 : (0 : ℝ) < Real.sqrt (12 / 25) := Real.sqrt_pos.2 (by norm_num)
  have hentry : ((rdl_reversible (fun _ : Fin 2 => (0 : ℝ)) cexR5 cexNu5).2.2 *
      (rdl_reversible (fun _ : Fin 2 => (0 : ℝ)) cexR5 cexNu5).1) 0 1 =
      (12 / 175) / (Real.sqrt (13 / 25) * Real.sqrt (12 / 25)) := by
    rw [Matrix.mul_apply, Fin.sum_univ_two]
    show rdl_rev_L cexR5 cexNu5 0 0 / Real.sqrt (rdl_rev_s cexR5 cexNu5 0) *
        (rdl_rev_R1 cexR5 0 1 / Real.sqrt (rdl_rev_s cexR5 cexNu5 1)) +
      rdl_rev_L cexR5 cexNu5 1 0 / Real.sqrt (rdl_rev_s cexR5 cexNu5 0) *
        (rdl_rev_R1 cexR5 1 1 / Real.sqrt (rdl_rev_s cexR5 cexNu5 1)) = _
    rw [hL, hL, hR1, hR1, hmu0, hmu1, hs0, hs1, hc00, hc01, hc10, hc11]
    have h50 : Real.sqrt (13 / 25) ≠ 0 := ne_of_gt hsq0
    have h51 : Real.sqrt (12 / 25) ≠ 0 := ne_of_gt hsq1
    have h25 : Real.sqrt 25 = 5 := by
      rw [show (25 : ℝ) = 5 ^ 2 by norm_num, Real.sqrt_sq (by norm_num)]
    field_simp
    rw [h25]
    ring
  refine ⟨hcontract, fun h => ?_⟩
  have h01 : ((rdl_reversible (fun _ : Fin 2 => (0 : ℝ)) cexR5 cexNu5).2.2 *
      (rdl_reversible (fun _ : Fin 2 => (0 : ℝ)) cexR5 cexNu5).1) 0 1 =
      (1 : Mat 2) 0 1 := by rw [h]
  rw [hentry] at h01
  have hpos : (0 : ℝ) < (12 / 175) /
      (Real.sqrt (13 / 25) * Real.sqrt (12 / 25)) :=
    div_pos (by norm_num) (mul_pos hsq0 hsq1)
  rw [h01] at hpos
  simp [Matrix.one_apply] at hpos

/-- C9 (amended): with `norm = 'reversible'`, the first entry of the first
column of the returned `R` is positive provided the solver output has
`R[0,0]` nonzero (so the sign fix divides by a nonzero sign) and the
diagonal overlap `s_0` is positive (so the rescaling divides by a positive
square root). -/
theorem C9_rdl_sign_amended {d : ℕ} [NeZero d] (w : Vec d) (R : Mat d)
    (nu : Vec d) (hR00 : R 0 0 ≠ 0) (hs0 : 0 < rdl_rev_s R nu 0) :
    0 < (rdl_reversible w R nu).1 0 0 := by
  have hR1v : rdl_rev_R1 R 0 0 = R 0 0 / np_sign (R 0 0) := by
    unfold rdl_rev_R1
    rw [Matrix.of_apply, if_pos rfl]
  have hRf : (rdl_reversible w R nu).1 0 0 =
      rdl_rev_R1 R 0 0 / Real.sqrt (rdl_rev_s R nu 0) := rfl
  rw [hRf, hR1v]
  apply div_pos _ (Real.sqrt_pos.2 hs0)
  rcases lt_trichotomy (R 0 0) 0 with hneg | hzero | hpos
  · rw [np_sign_neg hneg, show R 0 0 / (-1 : ℝ) = -(R 0 0) by ring]
    linarith
  · exact absurd hzero hR00
  · rw [np_sign_pos hpos, div_one]
    exact hpos

/-- Witness for C9: a one-dimensional instance with `R[0,0] = 3` and
positive overlap; the returned `R[0,0]` is positive. -/
theorem C9_witness :
    0 < (rdl_reversible (fun _ : Fin 1 => (0 : ℝ))
      (Matrix.of fun _ _ : Fin 1 => (3 : ℝ)) (fun _ => 1)).1 0 0 := by
  refine C9_rdl_sign_amended (fun _ => 0) _ _ ?_ ?_
  · norm_num
  · have : rdl_rev_s (Matrix.of fun _ _ : Fin 1 => (3 : ℝ)) (fun _ => 1) 0 =
        9 := by
      unfold rdl_rev_s rdl_rev_L rdl_rev_R1 rdl_rev_mu np_sign
      rw [Fin.sum_univ_one]
      norm_num
    rw [this]
    norm_num

/-- Counterexample for C9 as stated: `cexR9` is the magnitude-sorted `eig`
output for the transition-like matrix `diag(1, 2)` (its dominant
eigenvector is `(0, 1)`), `cexNu9` solves `transpose(R) * nu = e_0`, the
call with `norm = 'reversible'` returns without raising, and the first
entry of the returned first column is `0`, not positive: `np.sign(0) = 0`
turns the sign-fixing division into a division by zero. -/
theorem C9_counterexample :
    cexR9.transpose.mulVec cexNu9 = e0 ∧
    rdl_decomposition (fun _ : Fin 2 => (0 : ℝ)) cexR9 1 cexNu9 false
      "reversible" =
      .ok (rdl_reversible (fun _ : Fin 2 => (0 : ℝ)) cexR9 cexNu9) ∧
    ¬(0 < (rdl_reversible (fun _ : Fin 2 => (0 : ℝ)) cexR9 cexNu9).1 0 0) := by
  refine ⟨?_, rfl, ?_⟩
  · funext i
    fin_cases i <;>
      norm_num [cexR9, cexNu9, e0, Matrix.mulVec, Matrix.dotProduct,
        Fin.sum_univ_two]
  · have hRf : (rdl_reversible (fun _ : Fin 2 => (0 : ℝ)) cexR9 cexNu9).1 0 0 =
        rdl_rev_R1 cexR9 0 0 / Real.sqrt (rdl_rev_s cexR9 cexNu9 0) := rfl
    have hR100 : rdl_rev_R1 cexR9 0 0 = 0 := by
      unfold rdl_rev_R1
      rw [Matrix.of_apply, if_pos rfl]
      rw [show cexR9 0 0 = 0 by norm_num [cexR9], np_sign_zero]
      norm_num
    rw [hRf, hR100, zero_div]
    norm_num

end Msmtools
